import Mathlib

/-!
Shallow embedding of `mpc-net/src/multi.rs`: the MPC transport layer's
peer directory, mesh connector, exchange engine (broadcast / king
exchanges) and stats collector, together with theorems settling the
specification claims about them.

Modelling conventions:
* `u64` / `usize` counters follow 64-bit wrapping (release-mode)
  arithmetic: every update is taken modulo `word64`.
* A `TcpStream` is modelled as a queue of incoming bytes plus an ordered
  log of the read/write events performed on it, so that the order of
  reads and writes on each connection is observable.
* A Rust panic is modelled as an `Except` error carrying the `Stats`
  visible at the moment of the abort (the stats are the only registry
  state claims inspect at a panic).
* External effects (the OS socket API, address parsing in `std`) are
  oracle parameters: `net` yields the stream established for a given
  counterpart, `parseAddr` is the `SocketAddr` parser.
-/

/-- Modulus for 64-bit wrapping arithmetic (`u64` / 64-bit `usize`):
the numeral `2 ^ 64`. -/
def word64 : Nat := 18446744073709551616

/-- Wrapping `usize` subtraction, as in `self.peers.len() - 1`. -/
def usizeSub (a b : Nat) : Nat := (a + (word64 - b % word64)) % word64

/-- Network addresses are kept as their textual form. -/
abbrev SocketAddr : Type := String

/-- One event on a stream: bytes read from it or bytes written to it. -/
inductive StreamEv where
  | rd (bs : List Nat)
  | wr (bs : List Nat)
deriving DecidableEq

/-- Model of a `TcpStream`: pending incoming bytes and the event log. -/
structure TcpStream where
  incoming : List Nat
  log : List StreamEv
deriving DecidableEq

/-- Model of `read_exact` into a buffer of `m` bytes: consumes exactly
`m` incoming bytes, `none` when the connection cannot supply them. -/
def readExact (s : TcpStream) (m : Nat) : Option (List Nat × TcpStream) :=
  if m ≤ s.incoming.length then
    some (s.incoming.take m,
      { incoming := s.incoming.drop m, log := s.log ++ [StreamEv.rd (s.incoming.take m)] })
  else none

/-- Model of `write_all`: records the written bytes on the log. -/
def writeAll (s : TcpStream) (bs : List Nat) : TcpStream :=
  { s with log := s.log ++ [StreamEv.wr bs] }

/-- The `Stats` struct: four cumulative `u64` counters. -/
structure Stats where
  bytes_sent : Nat
  bytes_recv : Nat
  king_exchanges : Nat
  broadcasts : Nat
deriving DecidableEq

/-- The `Peer` struct: id, address, optional connection handle. -/
structure Peer where
  id : Nat
  addr : SocketAddr
  stream : Option TcpStream
deriving DecidableEq

/-- Embeds `Default for Peer`: id 0, loopback address, no stream. -/
def defaultPeer : Peer :=
  { id := 0, addr := "127.0.0.1:8000", stream := none }

/-- The `Connections` struct: own id, peer vector, stats. -/
structure Connections where
  id : Nat
  peers : List Peer
  stats : Stats
deriving DecidableEq

/-- Embeds `Connections::default()`: id 0, no peers, zeroed stats. -/
def defaultConnections : Connections :=
  { id := 0, peers := [],
    stats := { bytes_sent := 0, bytes_recv := 0, king_exchanges := 0, broadcasts := 0 } }

/-- Whitespace test used by the embedded `str::trim` (the claims only
exercise blank-versus-non-blank lines, for which the ASCII whitespace
characters suffice). -/
def isWS (c : Char) : Bool := c == ' ' || c == '\t' || c == '\n' || c == '\r'

/-- Embedding of `str::trim`: strips whitespace from both ends. -/
def trimStr (s : String) : String :=
  String.mk (((s.data.dropWhile isWS).reverse.dropWhile isWS).reverse)

/-- The parsing loop of `init_from_path`: walks the lines, trims each,
skips blank lines, parses non-blank lines as addresses and pushes a
`Peer` per non-blank line with the running id `pid`; `none` when a
non-blank line fails to parse. -/
def parseLines (parseAddr : String → Option SocketAddr) :
    List String → Nat → Option (List Peer)
  | [], _ => some []
  | line :: rest, pid =>
    let t := trimStr line
    if 0 < t.length then
      match parseAddr t with
      | none => none
      | some a =>
        match parseLines parseAddr rest (pid + 1) with
        | none => none
        | some ps => some ({ id := pid, addr := a, stream := none } :: ps)
    else parseLines parseAddr rest pid

/-- Embeds `Connections::init_from_path`: the file contents are `file` (`none`
models an unopenable resource).  Pushes one peer per non-blank line onto
the existing `peers` vector, then asserts `id < self.peers.len()` and
records the own id.  `none` models the fatal abort. -/
def init_from_path (parseAddr : String → Option SocketAddr)
    (c : Connections) (file : Option (List String)) (id : Nat) : Option Connections :=
  match file with
  | none => none
  | some lines =>
    match parseLines parseAddr lines 0 with
    | none => none
    | some parsed =>
      let peers := c.peers ++ parsed
      if id < peers.length then some { c with peers := peers, id := id }
      else none

/-- Error kinds distinguished by the connect retry loop. -/
inductive ErrKind where
  | connectionRefused
  | connectionReset
  | other
deriving DecidableEq

/-- Outcome of one `TcpStream::connect` attempt. -/
inductive AttemptResult where
  | ok
  | err (k : ErrKind)
deriving DecidableEq

/-- Observable state of the connect retry loop. -/
inductive LoopState where
  | connected
  | panicked
  | retrying
deriving DecidableEq

/-- One iteration of the retry loop in `connect_to_all`.  Mirrors the
source exactly: `let mut ms_waited = 0` is declared inside the loop
body, so the counter restarts at zero on every iteration before the 10
is added and the `% 3_000` / `> 30_000` tests run. -/
def connectLoopBody (a : AttemptResult) : LoopState :=
  match a with
  | AttemptResult.ok => LoopState.connected
  | AttemptResult.err k =>
    let msWaited := 0
    match k with
    | ErrKind.connectionRefused | ErrKind.connectionReset =>
      let msWaited := msWaited + 10
      if msWaited % 3000 = 0 then LoopState.retrying
      else if msWaited > 30000 then LoopState.panicked
      else LoopState.retrying
    | ErrKind.other => LoopState.panicked

/-- Runs the retry loop over a finite prefix of connect-attempt
outcomes; `retrying` means the loop is still going after consuming all
of them. -/
def connectLoopRun : List AttemptResult → LoopState
  | [] => LoopState.retrying
  | a :: rest =>
    match connectLoopBody a with
    | LoopState.connected => LoopState.connected
    | LoopState.panicked => LoopState.panicked
    | LoopState.retrying => connectLoopRun rest

/-- Replaces the element at index `i` (no-op when out of range). -/
def modifyNth (f : α → α) : Nat → List α → List α
  | _, [] => []
  | 0, a :: as => f a :: as
  | n + 1, a :: as => a :: modifyNth f n as

/-- Stores a freshly established stream in a peer slot. -/
def putStream (s : TcpStream) (p : Peer) : Peer := { p with stream := some s }

/-- Inner loop of `connect_to_all` for one round `fid`: walks the higher
ids `toIds`; the party with id `fid` actively connects (oracle `net`),
the party with the higher id accepts; everyone else is idle.  `none`
models an abort (a connect/accept failure of a non-retried kind). -/
def connectInner (net : Nat → Option TcpStream) (selfId fid : Nat) :
    List Nat → List Peer → Option (List Peer)
  | [], ps => some ps
  | toId :: rest, ps =>
    if selfId = fid then
      match net toId with
      | none => none
      | some s => connectInner net selfId fid rest (modifyNth (putStream s) toId ps)
    else if selfId = toId then
      match net fid with
      | none => none
      | some s => connectInner net selfId fid rest (modifyNth (putStream s) fid ps)
    else connectInner net selfId fid rest ps

/-- Round synchronization after round `fid`: party `fid` writes the
one-byte sentinel to party `fid + 1`, which blocks reading it. -/
def syncStep (selfId fid n : Nat) (ps : List Peer) : Option (List Peer) :=
  if fid + 1 < n then
    if selfId = fid then
      match ps.get? (selfId + 1) with
      | none => none
      | some p =>
        match p.stream with
        | none => none
        | some s => some (modifyNth (putStream (writeAll s [0])) (selfId + 1) ps)
    else if selfId = fid + 1 then
      match ps.get? (selfId - 1) with
      | none => none
      | some p =>
        match p.stream with
        | none => none
        | some s =>
          match readExact s 1 with
          | none => none
          | some (_, s1) => some (modifyNth (putStream s1) (selfId - 1) ps)
    else some ps
  else some ps

/-- Rounds of `connect_to_all`: for each `fid` the pair loop, then the
sentinel handoff. -/
def connectRounds (net : Nat → Option TcpStream) (selfId n : Nat) :
    List Nat → List Peer → Option (List Peer)
  | [], ps => some ps
  | fid :: rest, ps =>
    match connectInner net selfId fid (List.range' (fid + 1) (n - (fid + 1))) ps with
    | none => none
    | some ps1 =>
      match syncStep selfId fid n ps1 with
      | none => none
      | some ps2 => connectRounds net selfId n rest ps2

/-- Embeds `Connections::connect_to_all`: runs all rounds, then asserts that
every peer slot other than the caller's own holds a stream. -/
def connect_to_all (net : Nat → Option TcpStream) (c : Connections) :
    Except Stats Connections :=
  let n := c.peers.length
  match connectRounds net c.id n (List.range n) c.peers with
  | none => Except.error c.stats
  | some ps =>
    if (List.range n).all (fun i => i = c.id || (ps.get? i).any (fun p => p.stream.isSome))
    then Except.ok { c with peers := ps }
    else Except.error c.stats

/-- Embeds `Connections::am_king`. -/
def am_king (c : Connections) : Bool := c.id == 0

/-- Little-endian bytes, `width` of them, of a natural number. -/
def toLeBytesAux : Nat → Nat → List Nat
  | 0, _ => []
  | w + 1, x => x % 256 :: toLeBytesAux w (x / 256)

/-- Embeds `(m as u64).to_le_bytes()`: the 8 little-endian bytes of `m`. -/
def toLeBytes64 (x : Nat) : List Nat := toLeBytesAux 8 x

/-- Embeds `u64::from_le_bytes` composed with `as usize` (64-bit). -/
def fromLeBytes64 (bs : List Nat) : Nat :=
  bs.foldr (fun b acc => b + 256 * acc) 0

/-- Stats update performed by `broadcast` before any worker I/O:
`bytes_sent` and `bytes_recv` grow by `(n - 1) * m`, `broadcasts` by 1
(64-bit wrapping). -/
def broadcastStatsUpdate (s : Stats) (n m : Nat) : Stats :=
  { s with
    bytes_sent := (s.bytes_sent + usizeSub n 1 * m) % word64,
    bytes_recv := (s.bytes_recv + usizeSub n 1 * m) % word64,
    broadcasts := (s.broadcasts + 1) % word64 }

/-- The per-peer worker of `broadcast`: a lower id is read first then
written, the own id is served by copying the payload with no I/O, a
higher id is written first then read. -/
def broadcastPeer (ownId : Nat) (bytesOut : List Nat) (id : Nat) (p : Peer) :
    Option (List Nat × Peer) :=
  let m := bytesOut.length
  if id < ownId then
    match p.stream with
    | none => none
    | some s =>
      match readExact s m with
      | none => none
      | some (bytesIn, s1) => some (bytesIn, { p with stream := some (writeAll s1 bytesOut) })
  else if id = ownId then
    some (bytesOut, p)
  else
    match p.stream with
    | none => none
    | some s =>
      match readExact (writeAll s bytesOut) m with
      | none => none
      | some (bytesIn, s1) => some (bytesIn, { p with stream := some s1 })

/-- Indexed traversal of the peer vector by a per-peer worker, as the
`par_iter_mut().enumerate().map(..).collect()` fan-out: any worker
failure aborts the whole operation. -/
def mapWorkers (f : Nat → Peer → Option (List Nat × Peer)) :
    Nat → List Peer → Option (List (List Nat) × List Peer)
  | _, [] => some ([], [])
  | i, p :: ps =>
    match f i p with
    | none => none
    | some (b, p1) =>
      match mapWorkers f (i + 1) ps with
      | none => none
      | some (bs, ps1) => some (b :: bs, p1 :: ps1)

/-- Embeds `Connections::broadcast`. -/
def broadcast (c : Connections) (bytesOut : List Nat) :
    Except Stats (Connections × List (List Nat)) :=
  let m := bytesOut.length
  let stats1 := broadcastStatsUpdate c.stats c.peers.length m
  match mapWorkers (broadcastPeer c.id bytesOut) 0 c.peers with
  | none => Except.error stats1
  | some (res, ps1) => Except.ok ({ c with stats := stats1, peers := ps1 }, res)

/-- The per-peer worker of the king branch of `send_to_king`: the own
slot is a copy, every other slot is a blocking read of `m` bytes. -/
def sendKingWorker (ownId : Nat) (bytesOut : List Nat) (m : Nat) (id : Nat) (p : Peer) :
    Option (List Nat × Peer) :=
  if id = ownId then
    some (bytesOut, p)
  else
    match p.stream with
    | none => none
    | some s =>
      match readExact s m with
      | none => none
      | some (bytesIn, s1) => some (bytesIn, { p with stream := some s1 })

/-- Stats update of `send_to_king` (both branches), performed before
any I/O: a king-exchange tick on every party, then `(n - 1) * m` more
bytes received on the king or `m` more bytes sent on a non-king. -/
def sendToKingStatsUpdate (s : Stats) (isKing : Bool) (n m : Nat) : Stats :=
  let s1 := { s with king_exchanges := (s.king_exchanges + 1) % word64 }
  if isKing then { s1 with bytes_recv := (s1.bytes_recv + usizeSub n 1 * m) % word64 }
  else { s1 with bytes_sent := (s1.bytes_sent + m) % word64 }

/-- Embeds `Connections::send_to_king`. -/
def send_to_king (c : Connections) (bytesOut : List Nat) :
    Except Stats (Connections × Option (List (List Nat))) :=
  let m := bytesOut.length
  let stats1 := sendToKingStatsUpdate c.stats (am_king c) c.peers.length m
  if am_king c then
    match mapWorkers (sendKingWorker c.id bytesOut m) 0 c.peers with
    | none => Except.error stats1
    | some (res, ps1) => Except.ok ({ c with stats := stats1, peers := ps1 }, some res)
  else
    match c.peers.get? 0 with
    | none => Except.error stats1
    | some p =>
      match p.stream with
      | none => Except.error stats1
      | some s =>
        Except.ok
          ({ c with
              stats := stats1
              peers := modifyNth (putStream (writeAll s bytesOut)) 0 c.peers }, none)

/-- The per-peer worker of the king branch of `recv_from_king` (the
`filter` skips the own index, leaving that peer untouched): unwraps the
stream, asserts the entry's length equals `m`, then writes the 8-byte
prefix followed by the entry. -/
def distribWorker (bo : List (List Nat)) (m : Nat) (pre : List Nat)
    (ownId id : Nat) (p : Peer) : Option Peer :=
  if id = ownId then some p
  else
    match p.stream with
    | none => none
    | some s =>
      match bo.get? id with
      | none => none
      | some e =>
        if e.length = m then some { p with stream := some (writeAll (writeAll s pre) e) }
        else none

/-- Indexed traversal for `distribWorker` over the peer vector. -/
def distribAll (bo : List (List Nat)) (m : Nat) (pre : List Nat) (ownId : Nat) :
    Nat → List Peer → Option (List Peer)
  | _, [] => some []
  | i, p :: ps =>
    match distribWorker bo m pre ownId i p with
    | none => none
    | some p1 =>
      match distribAll bo m pre ownId (i + 1) ps with
      | none => none
      | some ps1 => some (p1 :: ps1)

/-- Stats update of the king branch of `recv_from_king`, performed
before any worker I/O: a king-exchange tick, then `(n - 1) * (m + 8)`
more bytes sent (each frame carries the 8-byte length prefix). -/
def recvKingStatsUpdate (s : Stats) (n m : Nat) : Stats :=
  { s with
    king_exchanges := (s.king_exchanges + 1) % word64,
    bytes_sent := (s.bytes_sent + usizeSub n 1 * (m + 8)) % word64 }

/-- Embeds `Connections::recv_from_king`. -/
def recv_from_king (c : Connections) (bytesOut : Option (List (List Nat))) :
    Except Stats (Connections × List Nat) :=
  let stats1 := { c.stats with king_exchanges := (c.stats.king_exchanges + 1) % word64 }
  if am_king c then
    match bytesOut with
    | none => Except.error stats1
    | some bo =>
      match bo.get? 0 with
      | none => Except.error stats1
      | some b0 =>
        let m := b0.length
        let pre := toLeBytes64 m
        let stats2 := recvKingStatsUpdate c.stats c.peers.length m
        match distribAll bo m pre c.id 0 c.peers with
        | none => Except.error stats2
        | some ps1 =>
          match bo.get? c.id with
          | none => Except.error stats2
          | some r => Except.ok ({ c with stats := stats2, peers := ps1 }, r)
  else
    match c.peers.get? 0 with
    | none => Except.error stats1
    | some p =>
      match p.stream with
      | none => Except.error stats1
      | some s =>
        match readExact s 8 with
        | none => Except.error stats1
        | some (szBytes, s1) =>
          let m := fromLeBytes64 szBytes
          let stats2 := { stats1 with bytes_recv := (stats1.bytes_recv + m) % word64 }
          match readExact s1 m with
          | none => Except.error stats2
          | some (bytesIn, s2) =>
            Except.ok
              ({ c with
                  stats := stats2
                  peers := modifyNth (putStream s2) 0 c.peers }, bytesIn)

/-- Embeds `Connections::uninit`: clears every connection handle. -/
def uninit (c : Connections) : Connections :=
  { c with peers := c.peers.map (fun p => { p with stream := none }) }

/-- The public `init_from_path` entry point: directory load followed by
the full mesh connect. -/
def pubInit (parseAddr : String → Option SocketAddr) (net : Nat → Option TcpStream)
    (c : Connections) (file : Option (List String)) (id : Nat) :
    Except Stats Connections :=
  match init_from_path parseAddr c file id with
  | none => Except.error c.stats
  | some c1 => connect_to_all net c1

/-- Stats visible at the end of an operation: the final registry stats
on success, the stats at the abort on a panic. -/
def exceptStats : Except Stats (Connections × α) → Stats
  | Except.error s => s
  | Except.ok (c, _) => c.stats

/-- Extracts the success value of an `Except`, with a fallback. -/
def okOr (x : Except ε α) (d : α) : α :=
  match x with
  | Except.ok a => a
  | Except.error _ => d


theorem usizeSub_one {n : Nat} (h1 : 1 ≤ n) (h2 : n ≤ word64) : usizeSub n 1 = n - 1 := by
  simp only [usizeSub, word64] at h2 ⊢
  omega

theorem modifyNth_length (f : α → α) (n : Nat) (l : List α) :
    (modifyNth f n l).length = l.length := by
  induction l generalizing n with
  | nil => cases n <;> rfl
  | cons a as ih =>
    cases n with
    | zero => rfl
    | succ k => simp [modifyNth, ih]

theorem modifyNth_get?_ne (f : α → α) {n j : Nat} (l : List α) (h : j ≠ n) :
    (modifyNth f n l).get? j = l.get? j := by
  induction l generalizing n j with
  | nil => cases n <;> rfl
  | cons a as ih =>
    cases n with
    | zero =>
      cases j with
      | zero => exact absurd rfl h
      | succ i => rfl
    | succ k =>
      cases j with
      | zero => rfl
      | succ i => simpa [modifyNth] using ih (h := fun he => h (by omega))

theorem modifyNth_map_of (f : α → α) (g : α → β) (n : Nat) (l : List α)
    (h : ∀ a, g (f a) = g a) : (modifyNth f n l).map g = l.map g := by
  induction l generalizing n with
  | nil => cases n <;> rfl
  | cons a as ih =>
    cases n with
    | zero => simp [modifyNth, h]
    | succ k => simp [modifyNth, ih]

theorem mapWorkers_length {f : Nat → Peer → Option (List Nat × Peer)} :
    ∀ {i : Nat} {ps : List Peer} {bs : List (List Nat)} {ps1 : List Peer},
      mapWorkers f i ps = some (bs, ps1) → bs.length = ps.length ∧ ps1.length = ps.length := by
  intro i ps
  induction ps generalizing i with
  | nil =>
    intro bs ps1 h
    simp only [mapWorkers, Option.some.injEq] at h
    obtain ⟨h1, h2⟩ := Prod.mk.injEq .. ▸ h
    simp [← h1, ← h2]
  | cons p ps ih =>
    intro bs ps1 h
    simp only [mapWorkers] at h
    cases hf : f i p with
    | none => simp [hf] at h
    | some bp =>
      obtain ⟨b, p1⟩ := bp
      cases hm : mapWorkers f (i + 1) ps with
      | none => simp [hf, hm] at h
      | some r =>
        obtain ⟨bs2, ps2⟩ := r
        simp only [hf, hm, Option.some.injEq] at h
        obtain ⟨h1, h2⟩ := Prod.mk.injEq .. ▸ h
        obtain ⟨hl, hr⟩ := ih hm
        subst h1 h2
        simp [hl, hr]

theorem mapWorkers_get? {f : Nat → Peer → Option (List Nat × Peer)} :
    ∀ {i : Nat} {ps : List Peer} {bs : List (List Nat)} {ps1 : List Peer},
      mapWorkers f i ps = some (bs, ps1) →
      ∀ j p, ps.get? j = some p →
        ∃ b p1, f (i + j) p = some (b, p1) ∧ bs.get? j = some b ∧ ps1.get? j = some p1 := by
  intro i ps
  induction ps generalizing i with
  | nil =>
    intro bs ps1 _ j p hj
    simp [List.get?] at hj
  | cons q ps ih =>
    intro bs ps1 h j p hj
    simp only [mapWorkers] at h
    cases hf : f i q with
    | none => simp [hf] at h
    | some bp =>
      obtain ⟨b, p1⟩ := bp
      cases hm : mapWorkers f (i + 1) ps with
      | none => simp [hf, hm] at h
      | some r =>
        obtain ⟨bs2, ps2⟩ := r
        simp only [hf, hm, Option.some.injEq] at h
        obtain ⟨h1, h2⟩ := Prod.mk.injEq .. ▸ h
        subst h1 h2
        cases j with
        | zero =>
          cases hj
          exact ⟨b, p1, by simpa using hf, rfl, rfl⟩
        | succ k =>
          obtain ⟨b3, p3, g1, g2, g3⟩ := ih hm k p hj
          refine ⟨b3, p3, ?_, g2, g3⟩
          have : i + 1 + k = i + (k + 1) := by omega
          rwa [this] at g1

theorem distribAll_length {bo : List (List Nat)} {m : Nat} {pre : List Nat} {ownId : Nat} :
    ∀ {i : Nat} {ps ps1 : List Peer},
      distribAll bo m pre ownId i ps = some ps1 → ps1.length = ps.length := by
  intro i ps
  induction ps generalizing i with
  | nil =>
    intro ps1 h
    simp only [distribAll, Option.some.injEq] at h
    simp [← h]
  | cons q ps ih =>
    intro ps1 h
    simp only [distribAll] at h
    cases hf : distribWorker bo m pre ownId i q with
    | none => simp [hf] at h
    | some p1 =>
      cases hm : distribAll bo m pre ownId (i + 1) ps with
      | none => simp [hf, hm] at h
      | some ps2 =>
        simp only [hf, hm, Option.some.injEq] at h
        subst h
        simp [ih hm]

theorem distribAll_get? {bo : List (List Nat)} {m : Nat} {pre : List Nat} {ownId : Nat} :
    ∀ {i : Nat} {ps ps1 : List Peer},
      distribAll bo m pre ownId i ps = some ps1 →
      ∀ j p, ps.get? j = some p →
        ∃ p1, distribWorker bo m pre ownId (i + j) p = some p1 ∧ ps1.get? j = some p1 := by
  intro i ps
  induction ps generalizing i with
  | nil =>
    intro ps1 _ j p hj
    simp [List.get?] at hj
  | cons q ps ih =>
    intro ps1 h j p hj
    simp only [distribAll] at h
    cases hf : distribWorker bo m pre ownId i q with
    | none => simp [hf] at h
    | some p1 =>
      cases hm : distribAll bo m pre ownId (i + 1) ps with
      | none => simp [hf, hm] at h
      | some ps2 =>
        simp only [hf, hm, Option.some.injEq] at h
        subst h
        cases j with
        | zero =>
          cases hj
          exact ⟨p1, by simpa using hf, rfl⟩
        | succ k =>
          obtain ⟨p3, g1, g3⟩ := ih hm k p hj
          refine ⟨p3, ?_, g3⟩
          have : i + 1 + k = i + (k + 1) := by omega
          rwa [this] at g1

theorem parseLines_isSome (pa : String → Option SocketAddr) :
    ∀ (lines : List String) (pid : Nat),
      (parseLines pa lines pid).isSome ↔
        ∀ l ∈ lines, 0 < (trimStr l).length → (pa (trimStr l)).isSome := by
  intro lines
  induction lines with
  | nil => intro pid; simp [parseLines]
  | cons l rest ih =>
    intro pid
    by_cases hb : 0 < (trimStr l).length
    · cases hp : pa (trimStr l) with
      | none =>
        simp only [parseLines, hb, if_pos, hp]
        simp [hp, hb]
      | some a =>
        simp only [parseLines, hb, if_pos, hp]
        cases hr : parseLines pa rest (pid + 1) with
        | none =>
          have := (ih (pid + 1))
          rw [hr] at this
          simp only [Option.isSome_none, Bool.false_eq_true, false_iff] at this
          push_neg at this
          obtain ⟨x, hx1, hx2, hx3⟩ := this
          simp only [Option.isSome_none, Bool.false_eq_true, false_iff]
          push_neg
          exact ⟨x, List.mem_cons_of_mem _ hx1, hx2, hx3⟩
        | some ps =>
          have := (ih (pid + 1))
          rw [hr] at this
          simp only [Option.isSome_some, true_iff] at this
          simp only [Option.isSome_some, true_iff]
          intro x hx hxb
          rcases List.mem_cons.mp hx with h1 | h2
          · subst h1; simp [hp]
          · exact this x h2 hxb
    · simp only [parseLines, hb, if_neg, if_false]
      rw [ih pid]
      constructor
      · intro h x hx hxb
        rcases List.mem_cons.mp hx with h1 | h2
        · subst h1; exact absurd hxb hb
        · exact h x h2 hxb
      · intro h x hx hxb
        exact h x (List.mem_cons_of_mem _ hx) hxb

theorem parseLines_spec (pa : String → Option SocketAddr) :
    ∀ (lines : List String) (pid : Nat) (ps : List Peer),
      parseLines pa lines pid = some ps →
        ps.length = (lines.filter (fun l => decide (0 < (trimStr l).length))).length ∧
        ps.map Peer.id = List.range' pid ps.length ∧
        ps.map Peer.addr
          = lines.filterMap (fun l => if 0 < (trimStr l).length then pa (trimStr l) else none) ∧
        ∀ p ∈ ps, p.stream = none := by
  intro lines
  induction lines with
  | nil =>
    intro pid ps h
    simp only [parseLines, Option.some.injEq] at h
    subst h
    simp [List.range']
  | cons l rest ih =>
    intro pid ps h
    by_cases hb : 0 < (trimStr l).length
    · simp only [parseLines, hb, if_pos] at h
      cases hp : pa (trimStr l) with
      | none => rw [hp] at h; cases h
      | some a =>
        rw [hp] at h
        cases hr : parseLines pa rest (pid + 1) with
        | none => rw [hr] at h; cases h
        | some ps2 =>
          rw [hr] at h
          simp only [Option.some.injEq] at h
          subst h
          obtain ⟨ih1, ih2, ih3, ih4⟩ := ih (pid + 1) ps2 hr
          refine ⟨by simp [hb, ih1], ?_, ?_, ?_⟩
          · simp only [List.map_cons, List.length_cons, ih2, List.range']
          · simp [hb, hp, ih3]
          · intro p hp2
            rcases List.mem_cons.mp hp2 with h1 | h2
            · subst h1; rfl
            · exact ih4 p h2
    · simp only [parseLines, hb, if_neg, if_false] at h
      obtain ⟨ih1, ih2, ih3, ih4⟩ := ih pid ps h
      exact ⟨by simp [hb, ih1], ih2, by simp [hb, ih3], ih4⟩

theorem toLeBytesAux_length (w x : Nat) : (toLeBytesAux w x).length = w := by
  induction w generalizing x with
  | zero => rfl
  | succ k ih => simp [toLeBytesAux, ih]

theorem toLeBytes64_length (x : Nat) : (toLeBytes64 x).length = 8 :=
  toLeBytesAux_length 8 x

theorem fromLe_toLeAux (w x : Nat) :
    (toLeBytesAux w x).foldr (fun b acc => b + 256 * acc) 0 = x % 256 ^ w := by
  induction w generalizing x with
  | zero => simp [toLeBytesAux, Nat.mod_one]
  | succ k ih =>
    simp only [toLeBytesAux, List.foldr_cons, ih]
    rw [pow_succ, mul_comm (256 ^ k) 256, Nat.mod_mul]

theorem fromLe_toLe64 (x : Nat) : fromLeBytes64 (toLeBytes64 x) = x % word64 := by
  have h := fromLe_toLeAux 8 x
  have : (256 : Nat) ^ 8 = word64 := by norm_num [word64]
  rw [this] at h
  exact h

theorem connectInner_map_id (net : Nat → Option TcpStream) (selfId fid : Nat) :
    ∀ (toIds : List Nat) (ps ps1 : List Peer),
      connectInner net selfId fid toIds ps = some ps1 →
      ps1.map Peer.id = ps.map Peer.id := by
  intro toIds
  induction toIds with
  | nil =>
    intro ps ps1 h
    simp only [connectInner, Option.some.injEq] at h
    rw [h]
  | cons t rest ih =>
    intro ps ps1 h
    simp only [connectInner] at h
    by_cases h1 : selfId = fid
    · rw [if_pos h1] at h
      cases hn : net t with
      | none => rw [hn] at h; cases h
      | some s =>
        rw [hn] at h; dsimp only at h
        exact (ih _ _ h).trans (modifyNth_map_of _ _ _ _ (fun a => rfl))
    · rw [if_neg h1] at h
      by_cases h2 : selfId = t
      · rw [if_pos h2] at h
        cases hn : net fid with
        | none => rw [hn] at h; cases h
        | some s =>
          rw [hn] at h; dsimp only at h
          exact (ih _ _ h).trans (modifyNth_map_of _ _ _ _ (fun a => rfl))
      · rw [if_neg h2] at h
        exact ih _ _ h

theorem connectInner_get?_self (net : Nat → Option TcpStream) (selfId fid : Nat) :
    ∀ (toIds : List Nat) (ps ps1 : List Peer),
      connectInner net selfId fid toIds ps = some ps1 →
      (∀ t ∈ toIds, fid < t) →
      ps1.get? selfId = ps.get? selfId := by
  intro toIds
  induction toIds with
  | nil =>
    intro ps ps1 h _
    simp only [connectInner, Option.some.injEq] at h
    rw [h]
  | cons t rest ih =>
    intro ps ps1 h hgt
    simp only [connectInner] at h
    by_cases h1 : selfId = fid
    · rw [if_pos h1] at h
      cases hn : net t with
      | none => rw [hn] at h; cases h
      | some s =>
        rw [hn] at h; dsimp only at h
        rw [ih _ _ h fun x hx => hgt x (List.mem_cons_of_mem _ hx)]
        exact modifyNth_get?_ne _ _ (by have := hgt t (List.mem_cons_self t rest); omega)
    · rw [if_neg h1] at h
      by_cases h2 : selfId = t
      · rw [if_pos h2] at h
        cases hn : net fid with
        | none => rw [hn] at h; cases h
        | some s =>
          rw [hn] at h; dsimp only at h
          rw [ih _ _ h fun x hx => hgt x (List.mem_cons_of_mem _ hx)]
          exact modifyNth_get?_ne _ _ (fun he => h1 he)
      · rw [if_neg h2] at h
        exact ih _ _ h fun x hx => hgt x (List.mem_cons_of_mem _ hx)

theorem syncStep_map_id (selfId fid n : Nat) (ps ps1 : List Peer)
    (h : syncStep selfId fid n ps = some ps1) : ps1.map Peer.id = ps.map Peer.id := by
  unfold syncStep at h
  by_cases hlt : fid + 1 < n
  · rw [if_pos hlt] at h
    by_cases h1 : selfId = fid
    · rw [if_pos h1] at h
      cases hg : ps.get? (selfId + 1) with
      | none => rw [hg] at h; cases h
      | some p =>
        rw [hg] at h; dsimp only at h
        cases hs : p.stream with
        | none => rw [hs] at h; cases h
        | some s =>
          rw [hs] at h; dsimp only at h
          simp only [Option.some.injEq] at h
          rw [← h]
          exact modifyNth_map_of _ _ _ _ (fun a => rfl)
    · rw [if_neg h1] at h
      by_cases h2 : selfId = fid + 1
      · rw [if_pos h2] at h
        cases hg : ps.get? (selfId - 1) with
        | none => rw [hg] at h; cases h
        | some p =>
          rw [hg] at h; dsimp only at h
          cases hs : p.stream with
          | none => rw [hs] at h; cases h
          | some s =>
            rw [hs] at h; dsimp only at h
            cases hr : readExact s 1 with
            | none => rw [hr] at h; cases h
            | some r =>
              rw [hr] at h; dsimp only at h
              simp only [Option.some.injEq] at h
              rw [← h]
              exact modifyNth_map_of _ _ _ _ (fun a => rfl)
      · rw [if_neg h2] at h
        simp only [Option.some.injEq] at h
        rw [h]
  · rw [if_neg hlt] at h
    simp only [Option.some.injEq] at h
    rw [h]

theorem syncStep_get?_self (selfId fid n : Nat) (ps ps1 : List Peer)
    (h : syncStep selfId fid n ps = some ps1) : ps1.get? selfId = ps.get? selfId := by
  unfold syncStep at h
  by_cases hlt : fid + 1 < n
  · rw [if_pos hlt] at h
    by_cases h1 : selfId = fid
    · rw [if_pos h1] at h
      cases hg : ps.get? (selfId + 1) with
      | none => rw [hg] at h; cases h
      | some p =>
        rw [hg] at h; dsimp only at h
        cases hs : p.stream with
        | none => rw [hs] at h; cases h
        | some s =>
          rw [hs] at h; dsimp only at h
          simp only [Option.some.injEq] at h
          rw [← h]
          exact modifyNth_get?_ne _ _ (by omega)
    · rw [if_neg h1] at h
      by_cases h2 : selfId = fid + 1
      · rw [if_pos h2] at h
        cases hg : ps.get? (selfId - 1) with
        | none => rw [hg] at h; cases h
        | some p =>
          rw [hg] at h; dsimp only at h
          cases hs : p.stream with
          | none => rw [hs] at h; cases h
          | some s =>
            rw [hs] at h; dsimp only at h
            cases hr : readExact s 1 with
            | none => rw [hr] at h; cases h
            | some r =>
              rw [hr] at h; dsimp only at h
              simp only [Option.some.injEq] at h
              rw [← h]
              exact modifyNth_get?_ne _ _ (by omega)
      · rw [if_neg h2] at h
        simp only [Option.some.injEq] at h
        rw [h]
  · rw [if_neg hlt] at h
    simp only [Option.some.injEq] at h
    rw [h]

theorem connectRounds_map_id (net : Nat → Option TcpStream) (selfId n : Nat) :
    ∀ (rounds : List Nat) (ps ps1 : List Peer),
      connectRounds net selfId n rounds ps = some ps1 →
      ps1.map Peer.id = ps.map Peer.id := by
  intro rounds
  induction rounds with
  | nil =>
    intro ps ps1 h
    simp only [connectRounds, Option.some.injEq] at h
    rw [h]
  | cons fid rest ih =>
    intro ps ps1 h
    simp only [connectRounds] at h
    cases hc : connectInner net selfId fid (List.range' (fid + 1) (n - (fid + 1))) ps with
    | none => rw [hc] at h; cases h
    | some qs =>
      rw [hc] at h; dsimp only at h
      cases hs : syncStep selfId fid n qs with
      | none => rw [hs] at h; cases h
      | some rs =>
        rw [hs] at h; dsimp only at h
        exact (ih _ _ h).trans ((syncStep_map_id _ _ _ _ _ hs).trans
          (connectInner_map_id _ _ _ _ _ _ hc))

theorem connectRounds_get?_self (net : Nat → Option TcpStream) (selfId n : Nat) :
    ∀ (rounds : List Nat) (ps ps1 : List Peer),
      connectRounds net selfId n rounds ps = some ps1 →
      ps1.get? selfId = ps.get? selfId := by
  intro rounds
  induction rounds with
  | nil =>
    intro ps ps1 h
    simp only [connectRounds, Option.some.injEq] at h
    rw [h]
  | cons fid rest ih =>
    intro ps ps1 h
    simp only [connectRounds] at h
    cases hc : connectInner net selfId fid (List.range' (fid + 1) (n - (fid + 1))) ps with
    | none => rw [hc] at h; cases h
    | some qs =>
      rw [hc] at h; dsimp only at h
      cases hs : syncStep selfId fid n qs with
      | none => rw [hs] at h; cases h
      | some rs =>
        rw [hs] at h; dsimp only at h
        have hin : qs.get? selfId = ps.get? selfId := by
          refine connectInner_get?_self _ _ _ _ _ _ hc ?_
          intro t ht
          have := List.mem_range'_1.mp ht
          omega
        exact (ih _ _ h).trans ((syncStep_get?_self _ _ _ _ _ hs).trans hin)

theorem connect_to_all_ok (net : Nat → Option TcpStream) (c c1 : Connections)
    (h : connect_to_all net c = Except.ok c1) :
    c1.id = c.id ∧ c1.stats = c.stats ∧
    c1.peers.map Peer.id = c.peers.map Peer.id ∧
    c1.peers.get? c.id = c.peers.get? c.id := by
  unfold connect_to_all at h
  dsimp only at h
  cases hr : connectRounds net c.id c.peers.length (List.range c.peers.length) c.peers with
  | none => rw [hr] at h; cases h
  | some ps =>
    rw [hr] at h; dsimp only at h
    by_cases hall : (List.range c.peers.length).all
        (fun i => i = c.id || ((ps.get? i).any (fun p => p.stream.isSome)))
    · rw [if_pos hall] at h
      cases h
      exact ⟨rfl, rfl, connectRounds_map_id _ _ _ _ _ _ hr,
        connectRounds_get?_self _ _ _ _ _ _ hr⟩
    · rw [if_neg hall] at h
      cases h

/-- Stats visible after `broadcast`, no matter whether every worker
succeeded or the operation aborted mid-exchange: always the fully
updated ones, because all three counter updates precede the fan-out. -/
theorem exceptStats_broadcast (c : Connections) (b : List Nat) :
    exceptStats (broadcast c b) = broadcastStatsUpdate c.stats c.peers.length b.length := by
  unfold broadcast
  dsimp only
  cases h : mapWorkers (broadcastPeer c.id b) 0 c.peers with
  | none => rfl
  | some r => cases r; rfl

/-- Stats visible after `send_to_king`, success or abort: the fully
updated ones of the taken branch. -/
theorem exceptStats_send_to_king (c : Connections) (b : List Nat) :
    exceptStats (send_to_king c b)
      = sendToKingStatsUpdate c.stats (am_king c) c.peers.length b.length := by
  unfold send_to_king
  dsimp only
  by_cases hk : am_king c
  · rw [if_pos hk]
    cases h : mapWorkers (sendKingWorker c.id b b.length) 0 c.peers with
    | none => rfl
    | some r => cases r; rfl
  · rw [if_neg hk]
    cases hg : c.peers.get? 0 with
    | none => rfl
    | some p =>
      dsimp only
      cases hs : p.stream with
      | none => rfl
      | some s => rfl

/-- Stats visible after the king branch of `recv_from_king`, success or
abort, once the argument and its first entry exist: the fully updated
ones. -/
theorem exceptStats_recv_king (c : Connections) (bo : List (List Nat)) (b0 : List Nat)
    (hk : c.id = 0) (h0 : bo.get? 0 = some b0) :
    exceptStats (recv_from_king c (some bo))
      = recvKingStatsUpdate c.stats c.peers.length b0.length := by
  unfold recv_from_king
  have hak : am_king c = true := by simp [am_king, hk]
  rw [if_pos hak]
  dsimp only
  rw [h0]
  dsimp only
  cases hd : distribAll bo b0.length (toLeBytes64 b0.length) c.id 0 c.peers with
  | none => rfl
  | some ps1 =>
    dsimp only
    cases hr : bo.get? c.id with
    | none => rfl
    | some r => rfl

/-- C1: the spec says connection-refused / connection-reset failures are
retried on a 10 ms backoff and the connector aborts the process after 30
seconds without a connection.  The code's own panic message (`Could not
find peer in 30s`) shows the same intent, but `ms_waited` is declared
inside the loop body, so it is 10 at every check and the abort is
unreachable: after arbitrarily many refused or reset failures the loop
is still retrying, never panicking. -/
theorem connect_retry_never_aborts (k : Nat) :
    connectLoopRun (List.replicate k (AttemptResult.err ErrKind.connectionRefused))
        = LoopState.retrying ∧
    connectLoopRun (List.replicate k (AttemptResult.err ErrKind.connectionReset))
        = LoopState.retrying := by
  induction k with
  | zero => exact ⟨rfl, rfl⟩
  | succ n ih =>
    refine ⟨?_, ?_⟩
    · simpa [List.replicate, connectLoopRun, connectLoopBody] using ih.1
    · simpa [List.replicate, connectLoopRun, connectLoopBody] using ih.2

/-- C6: after one broadcast of an `m`-byte payload among `N` parties,
the caller's bytes-sent and bytes-received counters each grow by exactly
`(N - 1) * m`, and its broadcast counter by exactly 1 (stated over the
stats visible at the end of the call, given realistic counter ranges). -/
theorem broadcast_stats_spec (c : Connections) (b : List Nat)
    (h1 : 1 ≤ c.peers.length) (h2 : c.peers.length ≤ word64)
    (h3 : c.stats.bytes_sent + (c.peers.length - 1) * b.length < word64)
    (h4 : c.stats.bytes_recv + (c.peers.length - 1) * b.length < word64)
    (h5 : c.stats.broadcasts + 1 < word64) :
    (exceptStats (broadcast c b)).bytes_sent
        = c.stats.bytes_sent + (c.peers.length - 1) * b.length ∧
    (exceptStats (broadcast c b)).bytes_recv
        = c.stats.bytes_recv + (c.peers.length - 1) * b.length ∧
    (exceptStats (broadcast c b)).broadcasts = c.stats.broadcasts + 1 := by
  rw [exceptStats_broadcast]
  unfold broadcastStatsUpdate
  rw [usizeSub_one h1 h2]
  exact ⟨Nat.mod_eq_of_lt h3, Nat.mod_eq_of_lt h4, Nat.mod_eq_of_lt h5⟩

/-- Witness for `broadcast_stats_spec`: a concrete two-party broadcast
of one byte. -/
def cW6 : Connections :=
  { id := 0
    peers := [ { id := 0, addr := "a", stream := none },
               { id := 1, addr := "b", stream := some { incoming := [7], log := [] } } ]
    stats := { bytes_sent := 3, bytes_recv := 4, king_exchanges := 5, broadcasts := 6 } }

theorem broadcast_stats_witness :
    (exceptStats (broadcast cW6 [5])).bytes_sent
        = cW6.stats.bytes_sent + (cW6.peers.length - 1) * [5].length ∧
    (exceptStats (broadcast cW6 [5])).bytes_recv
        = cW6.stats.bytes_recv + (cW6.peers.length - 1) * [5].length ∧
    (exceptStats (broadcast cW6 [5])).broadcasts = cW6.stats.broadcasts + 1 :=
  broadcast_stats_spec cW6 [5] (by decide) (by decide) (by decide) (by decide) (by decide)

/-- C9: in `broadcast`, in `send_to_king` (both branches), and in the
king branch of `recv_from_king`, every stats update precedes any network
read or write, so the stats visible at an abort mid-exchange already
equal the fully updated ones of a completed operation. -/
theorem stats_updated_before_io :
    (∀ (c : Connections) (b : List Nat),
        exceptStats (broadcast c b) = broadcastStatsUpdate c.stats c.peers.length b.length) ∧
    (∀ (c : Connections) (b : List Nat),
        exceptStats (send_to_king c b)
          = sendToKingStatsUpdate c.stats (am_king c) c.peers.length b.length) ∧
    (∀ (c : Connections) (bo : List (List Nat)) (b0 : List Nat),
        c.id = 0 → bo.get? 0 = some b0 →
        exceptStats (recv_from_king c (some bo))
          = recvKingStatsUpdate c.stats c.peers.length b0.length) :=
  ⟨exceptStats_broadcast, exceptStats_send_to_king,
    fun c bo b0 hk h0 => exceptStats_recv_king c bo b0 hk h0⟩

/-- Witness for `stats_updated_before_io`: a concrete king with a dead
peer connection, whose `recv_from_king` aborts mid-exchange yet shows
the fully updated stats. -/
def cW9 : Connections :=
  { id := 0
    peers := [ { id := 0, addr := "a", stream := none },
               { id := 1, addr := "b", stream := none } ]
    stats := { bytes_sent := 0, bytes_recv := 0, king_exchanges := 0, broadcasts := 0 } }

theorem stats_updated_before_io_witness :
    exceptStats (recv_from_king cW9 (some [[5], [6]]))
      = recvKingStatsUpdate cW9.stats cW9.peers.length (List.length [5]) :=
  stats_updated_before_io.2.2 cW9 [[5], [6]] [5] rfl rfl

theorem take_append_len {l1 l2 : List α} {m : Nat} (h : l1.length = m) :
    (l1 ++ l2).take m = l1 := by
  rw [← h]
  exact List.take_left l1 l2

theorem drop_append_len {l1 l2 : List α} {m : Nat} (h : l1.length = m) :
    (l1 ++ l2).drop m = l2 := by
  rw [← h]
  exact List.drop_left l1 l2

theorem readExact_append {s : TcpStream} {bi rest : List Nat} {m : Nat}
    (hin : s.incoming = bi ++ rest) (hlen : bi.length = m) :
    readExact s m = some (bi,
      { incoming := rest, log := s.log ++ [StreamEv.rd bi] }) := by
  unfold readExact
  rw [hin, take_append_len hlen, drop_append_len hlen, if_pos]
  simp [← hlen]

/-- C4: the per-peer broadcast worker reads `m` bytes then writes the
caller's `m`-byte payload when the peer id is below the caller's id,
writes first then reads when it is above, serves the caller's own slot
by copying the payload with no I/O, and the full call returns one entry
per peer. -/
theorem broadcast_worker_order_spec :
    (∀ (own : Nat) (bOut : List Nat) (id : Nat) (p : Peer) (s : TcpStream)
        (bi rest : List Nat), id < own → p.stream = some s →
        s.incoming = bi ++ rest → bi.length = bOut.length →
        broadcastPeer own bOut id p = some (bi,
          { p with stream := some ⟨rest, s.log ++ [StreamEv.rd bi, StreamEv.wr bOut]⟩ })) ∧
    (∀ (own : Nat) (bOut : List Nat) (id : Nat) (p : Peer) (s : TcpStream)
        (bi rest : List Nat), own < id → p.stream = some s →
        s.incoming = bi ++ rest → bi.length = bOut.length →
        broadcastPeer own bOut id p = some (bi,
          { p with stream := some ⟨rest, s.log ++ [StreamEv.wr bOut, StreamEv.rd bi]⟩ })) ∧
    (∀ (own : Nat) (bOut : List Nat) (p : Peer),
        broadcastPeer own bOut own p = some (bOut, p)) ∧
    (∀ (c : Connections) (bOut : List Nat) (c1 : Connections) (res : List (List Nat)),
        broadcast c bOut = Except.ok (c1, res) → res.length = c.peers.length) := by
  refine ⟨?_, ?_, ?_, ?_⟩
  · intro own bOut id p s bi rest hlt hp hin hlen
    unfold broadcastPeer
    rw [if_pos hlt, hp]
    dsimp only
    rw [readExact_append hin hlen]
    dsimp only [writeAll]
    simp
  · intro own bOut id p s bi rest hlt hp hin hlen
    unfold broadcastPeer
    rw [if_neg (by omega), if_neg (by omega), hp]
    dsimp only
    rw [readExact_append (s := writeAll s bOut) (by simpa [writeAll] using hin) hlen]
    dsimp only [writeAll]
    simp
  · intro own bOut p
    unfold broadcastPeer
    rw [if_neg (by omega), if_pos rfl]
  · intro c bOut c1 res h
    unfold broadcast at h
    dsimp only at h
    cases hm : mapWorkers (broadcastPeer c.id bOut) 0 c.peers with
    | none => rw [hm] at h; cases h
    | some r =>
      obtain ⟨bs, ps1⟩ := r
      rw [hm] at h; dsimp only at h
      cases h
      exact (mapWorkers_length hm).1

/-- Witness for `broadcast_worker_order_spec`: concrete workers for a
lower peer, a higher peer and the own slot, and a concrete full
broadcast returning one entry per peer. -/
theorem broadcast_worker_order_witness :
    broadcastPeer 1 [5] 0 ⟨0, "a", some ⟨[7], []⟩⟩
      = some ([7], (⟨0, "a", some ⟨[], [StreamEv.rd [7], StreamEv.wr [5]]⟩⟩ : Peer)) ∧
    broadcastPeer 0 [5] 1 ⟨1, "b", some ⟨[8], []⟩⟩
      = some ([8], (⟨1, "b", some ⟨[], [StreamEv.wr [5], StreamEv.rd [8]]⟩⟩ : Peer)) ∧
    broadcastPeer 2 [9] 2 ⟨2, "c", none⟩
      = some ([9], (⟨2, "c", none⟩ : Peer)) ∧
    (okOr (broadcast cW6 [5]) (defaultConnections, [])).2.length = cW6.peers.length :=
  ⟨broadcast_worker_order_spec.1 1 [5] 0 _ ⟨[7], []⟩ [7] [] (by decide) rfl rfl rfl,
   broadcast_worker_order_spec.2.1 0 [5] 1 _ ⟨[8], []⟩ [8] [] (by decide) rfl rfl rfl,
   broadcast_worker_order_spec.2.2.1 2 [9] _,
   broadcast_worker_order_spec.2.2.2 cW6 [5]
     (okOr (broadcast cW6 [5]) (defaultConnections, [])).1
     (okOr (broadcast cW6 [5]) (defaultConnections, [])).2 rfl⟩

/-- C7: directory loading parses one non-blank line per peer in order,
skips blank lines without consuming an id, assigns each peer the
zero-based index of its non-blank line as its id, and fails fatally
exactly when the resource cannot be opened, a non-blank line fails to
parse as an address, or the supplied own id is not below the number of
parsed peers (stated for a registry whose peer list is empty, as at the
first load). -/
theorem init_from_path_spec :
    (∀ (pa : String → Option SocketAddr) (c : Connections) (id : Nat),
        init_from_path pa c none id = none) ∧
    (∀ (pa : String → Option SocketAddr) (c : Connections) (lines : List String) (id : Nat),
        c.peers = [] →
        ((init_from_path pa c (some lines) id).isSome ↔
          ((∀ l ∈ lines, 0 < (trimStr l).length → (pa (trimStr l)).isSome) ∧
            id < (lines.filter (fun l => decide (0 < (trimStr l).length))).length))) ∧
    (∀ (pa : String → Option SocketAddr) (c : Connections) (lines : List String)
        (id : Nat) (c1 : Connections),
        c.peers = [] → init_from_path pa c (some lines) id = some c1 →
        c1.id = id ∧
        c1.peers.length = (lines.filter (fun l => decide (0 < (trimStr l).length))).length ∧
        c1.peers.map Peer.id = List.range c1.peers.length ∧
        c1.peers.map Peer.addr
          = lines.filterMap (fun l => if 0 < (trimStr l).length then pa (trimStr l) else none) ∧
        (∀ p ∈ c1.peers, p.stream = none)) := by
  refine ⟨?_, ?_, ?_⟩
  · intro pa c id
    rfl
  · intro pa c lines id hc
    unfold init_from_path
    dsimp only
    rw [hc]
    cases hp : parseLines pa lines 0 with
    | none =>
      dsimp only
      have h1 := parseLines_isSome pa lines 0
      rw [hp] at h1
      simp only [Option.isSome_none, Bool.false_eq_true, false_iff] at h1 ⊢
      intro hcon
      exact h1 hcon.1
    | some ps =>
      dsimp only
      obtain ⟨hl, _, _, _⟩ := parseLines_spec pa lines 0 ps hp
      have h1 := parseLines_isSome pa lines 0
      rw [hp] at h1
      simp only [Option.isSome_some, true_iff] at h1
      simp only [List.nil_append]
      by_cases hid : id < ps.length
      · rw [if_pos hid]
        simp only [Option.isSome_some, true_iff]
        exact ⟨h1, hl ▸ hid⟩
      · rw [if_neg hid]
        simp only [Option.isSome_none, Bool.false_eq_true, false_iff]
        intro hcon
        exact hid (hl ▸ hcon.2)
  · intro pa c lines id c1 hc h
    unfold init_from_path at h
    dsimp only at h
    rw [hc] at h
    cases hp : parseLines pa lines 0 with
    | none => rw [hp] at h; cases h
    | some ps =>
      rw [hp] at h; dsimp only at h
      simp only [List.nil_append] at h
      by_cases hid : id < ps.length
      · rw [if_pos hid] at h
        simp only [Option.some.injEq] at h
        obtain ⟨hl, hids, haddr, hstr⟩ := parseLines_spec pa lines 0 ps hp
        subst h
        refine ⟨rfl, by simpa using hl, ?_, by simpa using haddr, by simpa using hstr⟩
        simpa [List.range_eq_range'] using hids
      · rw [if_neg hid] at h
        cases h

/-- An address parser oracle accepting every string: stands in for the
external `SocketAddr` parser on well-formed configurations. -/
def pa0 : String → Option SocketAddr := fun s => some s

/-- A network oracle handing out a fresh stream with one pending byte
(enough for the round-sync token) for every counterpart. -/
def net0 : Nat → Option TcpStream := fun _ => some ⟨[0], []⟩

/-- Witness for `init_from_path_spec`: a concrete three-line file with a
blank middle line, loaded into a fresh registry with own id 1. -/
theorem init_from_path_spec_witness :
    init_from_path pa0 defaultConnections none 5 = none ∧
    ((init_from_path pa0 defaultConnections (some ["a", "", "b"]) 1).isSome ↔
      ((∀ l ∈ ["a", "", "b"], 0 < (trimStr l).length → (pa0 l.trim).isSome) ∧
        1 < (["a", "", "b"].filter (fun l => decide (0 < (trimStr l).length))).length)) ∧
    ((init_from_path pa0 defaultConnections (some ["a", "", "b"]) 1).getD
        defaultConnections).peers.map Peer.id
      = List.range (((init_from_path pa0 defaultConnections (some ["a", "", "b"]) 1).getD
        defaultConnections).peers.length) :=
  ⟨init_from_path_spec.1 pa0 defaultConnections 5,
   init_from_path_spec.2.1 pa0 defaultConnections ["a", "", "b"] 1 rfl,
   (init_from_path_spec.2.2 pa0 defaultConnections ["a", "", "b"] 1
      ((init_from_path pa0 defaultConnections (some ["a", "", "b"]) 1).getD
        defaultConnections) rfl (by rfl)).2.2.1⟩

/-- A non-king `recv_from_king` call against a king connection whose
pending bytes are a well-formed frame: reads the 8-byte little-endian
prefix, accounts the announced length, reads exactly that many bytes and
returns them; the supplied argument plays no role. -/
theorem recv_nonking_run (c : Connections) (bo : Option (List (List Nat))) (p : Peer)
    (m : Nat) (payload rest : List Nat) (lg : List StreamEv)
    (hid : c.id ≠ 0) (hp : c.peers.get? 0 = some p)
    (hs : p.stream = some ⟨toLeBytes64 m ++ (payload ++ rest), lg⟩)
    (hlen : payload.length = m) (hm : m < word64) :
    recv_from_king c bo = Except.ok
      ({ c with
          stats := { c.stats with
            king_exchanges := (c.stats.king_exchanges + 1) % word64
            bytes_recv := (c.stats.bytes_recv + m) % word64 }
          peers := modifyNth
            (putStream ⟨rest, lg ++ [StreamEv.rd (toLeBytes64 m), StreamEv.rd payload]⟩)
            0 c.peers }, payload) := by
  unfold recv_from_king
  have hak : am_king c = false := by simp [am_king, hid]
  rw [hak]
  dsimp only
  rw [hp]
  dsimp only
  rw [hs]
  dsimp only
  rw [readExact_append (s := ⟨toLeBytes64 m ++ (payload ++ rest), lg⟩) rfl (toLeBytes64_length m)]
  dsimp only
  rw [fromLe_toLe64, Nat.mod_eq_of_lt hm]
  rw [readExact_append (s := ⟨payload ++ rest, lg ++ [StreamEv.rd (toLeBytes64 m)]⟩) rfl hlen]
  simp

/-- Successful king branch of `recv_from_king`, destructured: the
return value is the king's own entry of the supplied list and the peer
vector is the one produced by the distribution workers. -/
theorem recv_king_ok (c : Connections) (bo : List (List Nat)) (b0 : List Nat)
    (c1 : Connections) (ret : List Nat)
    (hk : c.id = 0) (h0 : bo.get? 0 = some b0)
    (h : recv_from_king c (some bo) = Except.ok (c1, ret)) :
    ret = b0 ∧ c1.id = c.id ∧
    c1.stats = recvKingStatsUpdate c.stats c.peers.length b0.length ∧
    ∃ ps1, distribAll bo b0.length (toLeBytes64 b0.length) c.id 0 c.peers = some ps1 ∧
      c1.peers = ps1 := by
  unfold recv_from_king at h
  have hak : am_king c = true := by simp [am_king, hk]
  rw [hak] at h
  dsimp only at h
  rw [h0] at h
  dsimp only at h
  cases hd : distribAll bo b0.length (toLeBytes64 b0.length) c.id 0 c.peers with
  | none => rw [hd] at h; cases h
  | some ps1 =>
    rw [hd] at h
    dsimp only at h
    rw [hk, h0] at h
    dsimp only at h
    cases h
    exact ⟨rfl, by simp [hk], rfl, ps1, rfl, rfl⟩

/-- C8: king-distribution round-trip.  When the king's call succeeds
with a per-party list, it returns the king's own entry untouched (its
own slot sees no I/O) and every connected non-king peer's stream has
been sent exactly the 8-byte little-endian length prefix followed by
that peer's assigned entry; a non-king party facing such a frame reads
the prefix, then exactly the announced number of bytes, and returns
precisely its assigned payload. -/
theorem king_distribution_roundtrip :
    (∀ (c : Connections) (bo : List (List Nat)) (b0 : List Nat)
        (c1 : Connections) (ret : List Nat),
        recv_from_king c (some bo) = Except.ok (c1, ret) →
        c.id = 0 → bo.get? 0 = some b0 →
        ret = b0 ∧ c1.peers.get? 0 = c.peers.get? 0 ∧
        (∀ (j : Nat) (p : Peer) (s : TcpStream),
          c.peers.get? j = some p → p.stream = some s → j ≠ 0 →
          ∃ e, bo.get? j = some e ∧ c1.peers.get? j = some (Peer.mk p.id p.addr
            (some (TcpStream.mk s.incoming
              (s.log ++ [StreamEv.wr (toLeBytes64 b0.length), StreamEv.wr e])))))) ∧
    (∀ (c : Connections) (bo : Option (List (List Nat))) (p : Peer) (m : Nat)
        (payload rest : List Nat) (lg : List StreamEv),
        c.id ≠ 0 → c.peers.get? 0 = some p →
        p.stream = some ⟨toLeBytes64 m ++ (payload ++ rest), lg⟩ →
        payload.length = m → m < word64 →
        ∃ c1, recv_from_king c bo = Except.ok (c1, payload) ∧
          c1.peers.get? 0 = some (putStream
            (TcpStream.mk rest (lg ++ [StreamEv.rd (toLeBytes64 m), StreamEv.rd payload]))
            p)) := by
  constructor
  · intro c bo b0 c1 ret h hk h0
    obtain ⟨hret, hcid, hstats, ps1, hd, hpeers⟩ := recv_king_ok c bo b0 c1 ret hk h0 h
    refine ⟨hret, ?_, ?_⟩
    · cases hg : c.peers.get? 0 with
      | none =>
        rw [hpeers]
        have hlen := distribAll_length hd
        have : c.peers.length ≤ 0 + 0 := by
          by_contra hcon
          push_neg at hcon
          obtain ⟨a, ha⟩ : ∃ a, c.peers.get? 0 = some a := by
            rw [List.get?_eq_getElem?]
            exact ⟨c.peers[0], List.getElem?_eq_getElem (by omega)⟩
          rw [ha] at hg; cases hg
        rw [List.get?_eq_getElem?, List.getElem?_eq_none (by omega)]
      | some p =>
        obtain ⟨p1, hw, hg1⟩ := distribAll_get? hd 0 p hg
        unfold distribWorker at hw
        rw [if_pos hk.symm] at hw
        cases hw
        rw [hpeers, hg1]
    · intro j p s hj hs hj0
      obtain ⟨p1, hw, hg1⟩ := distribAll_get? hd j p hj
      unfold distribWorker at hw
      rw [if_neg (by omega), hs] at hw
      dsimp only at hw
      rw [Nat.zero_add] at hw
      cases he : bo.get? j with
      | none => rw [he] at hw; cases hw
      | some e =>
        rw [he] at hw
        dsimp only at hw
        by_cases hel : e.length = b0.length
        · rw [if_pos hel] at hw
          cases hw
          refine ⟨e, rfl, ?_⟩
          rw [hpeers, hg1]
          simp [writeAll]
        · rw [if_neg hel] at hw
          cases hw
  · intro c bo p m payload rest lg hid hp hs hlen hm
    refine ⟨_, recv_nonking_run c bo p m payload rest lg hid hp hs hlen hm, ?_⟩
    dsimp only
    have h0 : (0 : Nat) ≠ c.id := fun he => hid he.symm
    rw [show (modifyNth (putStream
        ⟨rest, lg ++ [StreamEv.rd (toLeBytes64 m), StreamEv.rd payload]⟩) 0 c.peers).get? 0
      = _ from rfl]
    cases hcp : c.peers with
    | nil => rw [hcp] at hp; cases hp
    | cons q qs =>
      rw [hcp] at hp
      simp only [List.get?] at hp
      cases hp
      simp [modifyNth, List.get?]

/-- Concrete king registry for the round-trip witness. -/
def cW8 : Connections :=
  { id := 0
    peers := [ { id := 0, addr := "a", stream := none },
               { id := 1, addr := "b", stream := some ⟨[], []⟩ } ]
    stats := { bytes_sent := 0, bytes_recv := 0, king_exchanges := 0, broadcasts := 0 } }

/-- Concrete non-king registry facing a well-formed one-byte frame. -/
def cW8n : Connections :=
  { id := 1
    peers := [ { id := 0, addr := "a",
                 stream := some ⟨toLeBytes64 1 ++ ([9] ++ []), []⟩ },
               { id := 1, addr := "b", stream := none } ]
    stats := { bytes_sent := 0, bytes_recv := 0, king_exchanges := 0, broadcasts := 0 } }

/-- Witness for `king_distribution_roundtrip`: a two-party exchange of
the list `[[5], [6]]`, checked on both ends. -/
theorem king_distribution_roundtrip_witness :
    ((okOr (recv_from_king cW8 (some [[5], [6]])) (defaultConnections, [])).2 = [5] ∧
      (okOr (recv_from_king cW8 (some [[5], [6]])) (defaultConnections, [])).1.peers.get? 0
        = cW8.peers.get? 0 ∧
      (∃ e, [[5], [6]].get? 1 = some e ∧
        (okOr (recv_from_king cW8 (some [[5], [6]])) (defaultConnections, [])).1.peers.get? 1
          = some (Peer.mk 1 "b" (some (TcpStream.mk []
              ([] ++ [StreamEv.wr (toLeBytes64 (List.length [5])), StreamEv.wr e])))))) ∧
    (∃ c1, recv_from_king cW8n none = Except.ok (c1, [9]) ∧
      c1.peers.get? 0 = some (putStream
        (TcpStream.mk [] ([] ++ [StreamEv.rd (toLeBytes64 1), StreamEv.rd [9]]))
        (Peer.mk 0 "a" (some ⟨toLeBytes64 1 ++ ([9] ++ []), []⟩)))) := by
  constructor
  · have h := king_distribution_roundtrip.1 cW8 [[5], [6]] [5]
      (okOr (recv_from_king cW8 (some [[5], [6]])) (defaultConnections, [])).1
      (okOr (recv_from_king cW8 (some [[5], [6]])) (defaultConnections, [])).2
      (by rfl) rfl rfl
    exact ⟨h.1, h.2.1, h.2.2 1 (Peer.mk 1 "b" (some ⟨[], []⟩)) ⟨[], []⟩ rfl rfl (by decide)⟩
  · exact king_distribution_roundtrip.2 cW8n none
      (Peer.mk 0 "a" (some ⟨toLeBytes64 1 ++ ([9] ++ []), []⟩)) 1 [9] [] []
      (by decide) rfl rfl rfl (by decide)

/-- C3 counterexample: on a two-party king distribution of one-byte
entries the king's bytes-sent counter grows by 9 = (N - 1) * (m + 8),
not by (N - 1) * m = 1 as the claim states — each frame also carries
the 8-byte length prefix. -/
theorem recv_from_king_sent_not_claim :
    (exceptStats (recv_from_king cW8 (some [[5], [6]]))).bytes_sent
      ≠ cW8.stats.bytes_sent + (cW8.peers.length - 1) * (List.length [5]) := by
  decide

/-- C3 (amended): the side effects of `recv_from_king` mirror
`send_to_king` in structure but not in magnitude: on the king,
bytes-sent grows by exactly `(N - 1) * (m + 8)` (the 8-byte length
prefix is accounted per non-king recipient); on a non-king party,
bytes-received grows by exactly the announced payload length `m`; the
king-exchange counter grows by 1 on every party. -/
theorem recv_from_king_stats_spec :
    (∀ (c : Connections) (bo : List (List Nat)) (b0 : List Nat),
        c.id = 0 → bo.get? 0 = some b0 →
        1 ≤ c.peers.length → c.peers.length ≤ word64 →
        c.stats.bytes_sent + (c.peers.length - 1) * (b0.length + 8) < word64 →
        c.stats.king_exchanges + 1 < word64 →
        (exceptStats (recv_from_king c (some bo))).bytes_sent
            = c.stats.bytes_sent + (c.peers.length - 1) * (b0.length + 8) ∧
        (exceptStats (recv_from_king c (some bo))).king_exchanges
            = c.stats.king_exchanges + 1) ∧
    (∀ (c : Connections) (bo : Option (List (List Nat))) (p : Peer) (m : Nat)
        (payload rest : List Nat) (lg : List StreamEv),
        c.id ≠ 0 → c.peers.get? 0 = some p →
        p.stream = some ⟨toLeBytes64 m ++ (payload ++ rest), lg⟩ →
        payload.length = m → m < word64 →
        c.stats.bytes_recv + m < word64 → c.stats.king_exchanges + 1 < word64 →
        (exceptStats (recv_from_king c bo)).bytes_recv = c.stats.bytes_recv + m ∧
        (exceptStats (recv_from_king c bo)).king_exchanges
            = c.stats.king_exchanges + 1) := by
  constructor
  · intro c bo b0 hk h0 h1 h2 h3 h4
    rw [exceptStats_recv_king c bo b0 hk h0]
    unfold recvKingStatsUpdate
    rw [usizeSub_one h1 h2]
    exact ⟨Nat.mod_eq_of_lt h3, Nat.mod_eq_of_lt h4⟩
  · intro c bo p m payload rest lg hid hp hs hlen hm h3 h4
    rw [recv_nonking_run c bo p m payload rest lg hid hp hs hlen hm]
    exact ⟨Nat.mod_eq_of_lt h3, Nat.mod_eq_of_lt h4⟩

/-- Witness for `recv_from_king_stats_spec`: the concrete two-party
exchange, on the king and on the non-king end. -/
theorem recv_from_king_stats_witness :
    ((exceptStats (recv_from_king cW8 (some [[5], [6]]))).bytes_sent
        = cW8.stats.bytes_sent + (cW8.peers.length - 1) * (List.length [5] + 8) ∧
      (exceptStats (recv_from_king cW8 (some [[5], [6]]))).king_exchanges
        = cW8.stats.king_exchanges + 1) ∧
    ((exceptStats (recv_from_king cW8n none)).bytes_recv = cW8n.stats.bytes_recv + 1 ∧
      (exceptStats (recv_from_king cW8n none)).king_exchanges
        = cW8n.stats.king_exchanges + 1) :=
  ⟨recv_from_king_stats_spec.1 cW8 [[5], [6]] [5] rfl rfl (by decide) (by decide)
      (by decide) (by decide),
   recv_from_king_stats_spec.2 cW8n none
      (Peer.mk 0 "a" (some ⟨toLeBytes64 1 ++ ([9] ++ []), []⟩)) 1 [9] [] []
      (by decide) rfl rfl rfl (by decide) (by decide) (by decide)⟩

/-- C5 counterexample: a non-king party supplying a payload list is not
a fatal failure — the argument is silently ignored and the call
succeeds against a well-formed king frame. -/
theorem recv_from_king_nonking_arg_not_fatal :
    (recv_from_king cW8n (some [[7], [7]])).isOk = true := by
  decide

/-- C5 (amended): `recv_from_king` fatally fails when the king omits
the payload-list argument, and when the king supplies entries of
unequal length, each entry's length check running before any byte of
that entry's frame is transmitted to its peer; a non-king party
supplying a list violates the caller contract but is silently ignored —
the call behaves exactly as with no argument. -/
theorem recv_from_king_contract_spec :
    (∀ c : Connections, c.id = 0 →
        recv_from_king c none = Except.error
          { c.stats with king_exchanges := (c.stats.king_exchanges + 1) % word64 }) ∧
    (∀ (c : Connections) (bo : List (List Nat)) (b0 : List Nat) (j : Nat) (e : List Nat),
        c.id = 0 → bo.get? 0 = some b0 → bo.get? j = some e →
        j < c.peers.length → j ≠ 0 → e.length ≠ b0.length →
        (recv_from_king c (some bo)).isOk = false) ∧
    (∀ (bo : List (List Nat)) (m : Nat) (pre : List Nat) (own j : Nat)
        (p : Peer) (e : List Nat),
        j ≠ own → bo.get? j = some e → e.length ≠ m →
        distribWorker bo m pre own j p = none) ∧
    (∀ (c : Connections) (bo1 bo2 : Option (List (List Nat))),
        c.id ≠ 0 → recv_from_king c bo1 = recv_from_king c bo2) := by
  refine ⟨?_, ?_, ?_, ?_⟩
  · intro c hk
    unfold recv_from_king
    have hak : am_king c = true := by simp [am_king, hk]
    rw [if_pos hak]
  · intro c bo b0 j e hk h0 he hjlen hj0 hne
    cases hres : recv_from_king c (some bo) with
    | error s => rfl
    | ok r =>
      exfalso
      obtain ⟨c1, ret⟩ := r
      obtain ⟨-, -, -, ps1, hd, -⟩ := recv_king_ok c bo b0 c1 ret hk h0 hres
      obtain ⟨p, hp⟩ : ∃ p, c.peers.get? j = some p := by
        rw [List.get?_eq_getElem?]
        exact ⟨c.peers[j], List.getElem?_eq_getElem hjlen⟩
      obtain ⟨p1, hw, -⟩ := distribAll_get? hd j p hp
      unfold distribWorker at hw
      rw [if_neg (by omega)] at hw
      cases hs : p.stream with
      | none => rw [hs] at hw; cases hw
      | some s =>
        rw [hs] at hw
        dsimp only at hw
        rw [Nat.zero_add, he] at hw
        dsimp only at hw
        rw [if_neg hne] at hw
        cases hw
  · intro bo m pre own j p e hj he hne
    unfold distribWorker
    rw [if_neg hj]
    cases hs : p.stream with
    | none => rfl
    | some s =>
      dsimp only
      rw [he]
      dsimp only
      rw [if_neg hne]
  · intro c bo1 bo2 hid
    unfold recv_from_king
    have hak : am_king c = false := by simp [am_king, hid]
    rw [hak]
    simp only [Bool.false_eq_true, if_false]

/-- Witness for `recv_from_king_contract_spec`: the king with a missing
argument, the king with unequal one- and two-byte entries, a concrete
length-mismatched worker, and the non-king end with and without an
argument. -/
theorem recv_from_king_contract_witness :
    recv_from_king cW8 none = Except.error
      { cW8.stats with king_exchanges := (cW8.stats.king_exchanges + 1) % word64 } ∧
    (recv_from_king cW8 (some [[5], [6, 7]])).isOk = false ∧
    distribWorker [[5], [6, 7]] 1 (toLeBytes64 1) 0 1 (Peer.mk 1 "b" (some ⟨[], []⟩))
      = none ∧
    recv_from_king cW8n (some [[7], [7]]) = recv_from_king cW8n none :=
  ⟨recv_from_king_contract_spec.1 cW8 rfl,
   recv_from_king_contract_spec.2.1 cW8 [[5], [6, 7]] [5] 1 [6, 7] rfl rfl rfl
      (by decide) (by decide) (by decide),
   recv_from_king_contract_spec.2.2.1 [[5], [6, 7]] 1 (toLeBytes64 1) 0 1
      (Peer.mk 1 "b" (some ⟨[], []⟩)) [6, 7] (by decide) rfl (by decide),
   recv_from_king_contract_spec.2.2.2 cW8n (some [[7], [7]]) none (by decide)⟩

/-- Successful directory load, destructured: the new peers are appended
to the existing vector, the own id is recorded and in range, stats are
untouched. -/
theorem init_from_path_ok (pa : String → Option SocketAddr) (c : Connections)
    (file : Option (List String)) (id : Nat) (c1 : Connections)
    (h : init_from_path pa c file id = some c1) :
    c1.id = id ∧ c1.stats = c.stats ∧ id < c1.peers.length ∧
    ∃ lines parsed, file = some lines ∧ parseLines pa lines 0 = some parsed ∧
      c1.peers = c.peers ++ parsed := by
  cases file with
  | none => cases h
  | some lines =>
    unfold init_from_path at h
    dsimp only at h
    cases hp : parseLines pa lines 0 with
    | none => rw [hp] at h; cases h
    | some parsed =>
      rw [hp] at h
      dsimp only at h
      by_cases hid : id < (c.peers ++ parsed).length
      · rw [if_pos hid] at h
        cases h
        exact ⟨rfl, rfl, hid, lines, parsed, rfl, hp, rfl⟩
      · rw [if_neg hid] at h
        cases h

/-- C2 counterexample state: init with a one-line directory, then
uninit, then a second init with the same directory — the registry
re-initializes successfully but the appended peer list now carries the
ids 0, 0 instead of 0, 1. -/
def cW2 : Connections :=
  okOr (pubInit pa0 net0
    (uninit (okOr (pubInit pa0 net0 defaultConnections (some ["a"]) 0) defaultConnections))
    (some ["a"]) 0) defaultConnections

/-- C2 counterexample: a second successful init performed after uninit
violates the topology invariant — `init_from_path` appends to the
retained peer vector, so ids restart at 0 and no longer equal
positions. -/
theorem reinit_breaks_topology_invariant :
    pubInit pa0 net0
        (uninit (okOr (pubInit pa0 net0 defaultConnections (some ["a"]) 0) defaultConnections))
        (some ["a"]) 0 = Except.ok cW2 ∧
    ¬ (cW2.id < cW2.peers.length ∧
        cW2.peers.map Peer.id = List.range cW2.peers.length) := by
  constructor
  · rfl
  · decide

/-- C2 (amended): the topology invariant — the own id is a valid index
and peer ids are contiguous from 0, equal to positions — holds after
every successful init performed on a registry whose peer list is empty
(the first init; a later init only after the peer list is cleared).  A
second init after uninit retains the old peers and breaks the
invariant. -/
theorem init_emptyPeers_topology_invariant (pa : String → Option SocketAddr)
    (net : Nat → Option TcpStream) (c : Connections) (file : Option (List String))
    (id : Nat) (c1 : Connections)
    (hc : c.peers = []) (h : pubInit pa net c file id = Except.ok c1) :
    c1.id < c1.peers.length ∧ c1.peers.map Peer.id = List.range c1.peers.length := by
  unfold pubInit at h
  cases hi : init_from_path pa c file id with
  | none => rw [hi] at h; cases h
  | some c2 =>
    rw [hi] at h
    dsimp only at h
    obtain ⟨hid, -, hlt, lines, parsed, -, hp, hpeers⟩ :=
      init_from_path_ok pa c file id c2 hi
    obtain ⟨-, hids, -, -⟩ := parseLines_spec pa lines 0 parsed hp
    have hc2 : c2.peers.map Peer.id = List.range c2.peers.length := by
      rw [hpeers, hc, List.nil_append, hids, List.range_eq_range']
    obtain ⟨hid1, -, hmap, -⟩ := connect_to_all_ok net c2 c1 h
    have hlen : c1.peers.length = c2.peers.length := by
      have := congrArg List.length hmap
      simpa using this
    refine ⟨?_, ?_⟩
    · rw [hid1, hid, hlen]
      exact hlt
    · rw [hmap, hc2, hlen]

/-- Witness for `init_emptyPeers_topology_invariant`: a concrete
two-party first init. -/
def cW2g : Connections :=
  okOr (pubInit pa0 net0 defaultConnections (some ["a", "b"]) 0) defaultConnections

theorem init_topology_invariant_witness :
    cW2g.id < cW2g.peers.length ∧ cW2g.peers.map Peer.id = List.range cW2g.peers.length :=
  init_emptyPeers_topology_invariant pa0 net0 defaultConnections (some ["a", "b"]) 0 cW2g
    rfl (by rfl)

/-- A worker fan-out whose worker at index `j` returns its peer
unchanged leaves slot `j` of the vector untouched. -/
theorem mapWorkers_get?_fix {f : Nat → Peer → Option (List Nat × Peer)}
    {ps : List Peer} {bs : List (List Nat)} {ps1 : List Peer}
    (h : mapWorkers f 0 ps = some (bs, ps1)) (j : Nat)
    (hfix : ∀ p, ∃ b, f j p = some (b, p)) : ps1.get? j = ps.get? j := by
  cases hg : ps.get? j with
  | none =>
    have hlen := (mapWorkers_length h).2
    rw [List.get?_eq_none] at hg ⊢
    omega
  | some p =>
    obtain ⟨b, p1, hw, -, hg1⟩ := mapWorkers_get? h j p hg
    obtain ⟨b2, hw2⟩ := hfix p
    rw [Nat.zero_add] at hw
    rw [hw] at hw2
    simp only [Option.some.injEq, Prod.mk.injEq] at hw2
    rw [hg1, hw2.2]

/-- The distribution fan-out leaves the own slot untouched. -/
theorem distribAll_get?_fix {bo : List (List Nat)} {m : Nat} {pre : List Nat}
    {ownId : Nat} {ps ps1 : List Peer}
    (h : distribAll bo m pre ownId 0 ps = some ps1) :
    ps1.get? ownId = ps.get? ownId := by
  cases hg : ps.get? ownId with
  | none =>
    have hlen := distribAll_length h
    rw [List.get?_eq_none] at hg ⊢
    omega
  | some p =>
    obtain ⟨p1, hw, hg1⟩ := distribAll_get? h ownId p hg
    rw [Nat.zero_add] at hw
    unfold distribWorker at hw
    rw [if_pos rfl] at hw
    cases hw
    rw [hg1]

/-- A successful broadcast preserves the own id and the own peer slot
(the own worker only copies the payload). -/
theorem broadcast_ok_pres (c c1 : Connections) (b : List Nat) (r : List (List Nat))
    (h : broadcast c b = Except.ok (c1, r)) :
    c1.id = c.id ∧ c1.peers.get? c.id = c.peers.get? c.id := by
  unfold broadcast at h
  dsimp only at h
  cases hm : mapWorkers (broadcastPeer c.id b) 0 c.peers with
  | none => rw [hm] at h; cases h
  | some res =>
    obtain ⟨bs, ps1⟩ := res
    rw [hm] at h
    dsimp only at h
    cases h
    refine ⟨rfl, mapWorkers_get?_fix hm c.id ?_⟩
    intro p
    refine ⟨b, ?_⟩
    unfold broadcastPeer
    rw [if_neg (by omega), if_pos rfl]

/-- A successful `send_to_king` preserves the own id and the own peer
slot. -/
theorem send_to_king_ok_pres (c c1 : Connections) (b : List Nat)
    (r : Option (List (List Nat))) (h : send_to_king c b = Except.ok (c1, r)) :
    c1.id = c.id ∧ c1.peers.get? c.id = c.peers.get? c.id := by
  unfold send_to_king at h
  dsimp only at h
  by_cases hk : am_king c
  · rw [if_pos hk] at h
    cases hm : mapWorkers (sendKingWorker c.id b b.length) 0 c.peers with
    | none => rw [hm] at h; cases h
    | some res =>
      obtain ⟨bs, ps1⟩ := res
      rw [hm] at h
      dsimp only at h
      cases h
      refine ⟨rfl, mapWorkers_get?_fix hm c.id ?_⟩
      intro p
      refine ⟨b, ?_⟩
      unfold sendKingWorker
      rw [if_pos rfl]
  · rw [if_neg hk] at h
    have hid : c.id ≠ 0 := by
      intro he
      exact hk (by simp [am_king, he])
    cases hg : c.peers.get? 0 with
    | none => rw [hg] at h; cases h
    | some p =>
      rw [hg] at h
      dsimp only at h
      cases hs : p.stream with
      | none => rw [hs] at h; cases h
      | some s =>
        rw [hs] at h
        dsimp only at h
        cases h
        exact ⟨rfl, modifyNth_get?_ne _ _ hid⟩

/-- A successful `recv_from_king` preserves the own id and the own peer
slot (the king's filter skips it; a non-king only touches slot 0). -/
theorem recv_from_king_ok_pres (c c1 : Connections) (bo : Option (List (List Nat)))
    (r : List Nat) (h : recv_from_king c bo = Except.ok (c1, r)) :
    c1.id = c.id ∧ c1.peers.get? c.id = c.peers.get? c.id := by
  unfold recv_from_king at h
  dsimp only at h
  by_cases hk : am_king c
  · rw [if_pos hk] at h
    cases bo with
    | none => cases h
    | some bo1 =>
      dsimp only at h
      cases h0 : bo1.get? 0 with
      | none => rw [h0] at h; cases h
      | some b0 =>
        rw [h0] at h
        dsimp only at h
        cases hd : distribAll bo1 b0.length (toLeBytes64 b0.length) c.id 0 c.peers with
        | none => rw [hd] at h; cases h
        | some ps1 =>
          rw [hd] at h
          dsimp only at h
          cases hr : bo1.get? c.id with
          | none => rw [hr] at h; cases h
          | some ret =>
            rw [hr] at h
            dsimp only at h
            cases h
            exact ⟨rfl, distribAll_get?_fix hd⟩
  · rw [if_neg hk] at h
    have hid : c.id ≠ 0 := by
      intro he
      exact hk (by simp [am_king, he])
    cases hg : c.peers.get? 0 with
    | none => rw [hg] at h; cases h
    | some p =>
      rw [hg] at h
      dsimp only at h
      cases hs : p.stream with
      | none => rw [hs] at h; cases h
      | some s =>
        rw [hs] at h
        dsimp only at h
        cases hre : readExact s 8 with
        | none => rw [hre] at h; cases h
        | some r8 =>
          obtain ⟨szBytes, s1⟩ := r8
          rw [hre] at h
          dsimp only at h
          cases hre2 : readExact s1 (fromLeBytes64 szBytes) with
          | none => rw [hre2] at h; cases h
          | some r2 =>
            obtain ⟨bytesIn, s2⟩ := r2
            rw [hre2] at h
            dsimp only at h
            cases h
            exact ⟨rfl, modifyNth_get?_ne _ _ hid⟩

/-- States of the registry reachable by any sequence of the public
operations (each succeeding). -/
inductive ReachAny : Connections → Prop where
  | start : ReachAny defaultConnections
  | doInit (c c1 : Connections) (pa : String → Option SocketAddr)
      (net : Nat → Option TcpStream) (file : Option (List String)) (id : Nat) :
      ReachAny c → pubInit pa net c file id = Except.ok c1 → ReachAny c1
  | doBroadcast (c c1 : Connections) (b : List Nat) (r : List (List Nat)) :
      ReachAny c → broadcast c b = Except.ok (c1, r) → ReachAny c1
  | doSend (c c1 : Connections) (b : List Nat) (r : Option (List (List Nat))) :
      ReachAny c → send_to_king c b = Except.ok (c1, r) → ReachAny c1
  | doRecv (c c1 : Connections) (bo : Option (List (List Nat))) (r : List Nat) :
      ReachAny c → recv_from_king c bo = Except.ok (c1, r) → ReachAny c1
  | doUninit (c : Connections) : ReachAny c → ReachAny (uninit c)

/-- States reachable through the documented lifecycle: identical to
`ReachAny` except that an init is only performed on a registry holding
no live connection handle (a fresh registry, or one after `uninit`). -/
inductive ReachLC : Connections → Prop where
  | start : ReachLC defaultConnections
  | doInit (c c1 : Connections) (pa : String → Option SocketAddr)
      (net : Nat → Option TcpStream) (file : Option (List String)) (id : Nat) :
      ReachLC c → (∀ p ∈ c.peers, p.stream = none) →
      pubInit pa net c file id = Except.ok c1 → ReachLC c1
  | doBroadcast (c c1 : Connections) (b : List Nat) (r : List (List Nat)) :
      ReachLC c → broadcast c b = Except.ok (c1, r) → ReachLC c1
  | doSend (c c1 : Connections) (b : List Nat) (r : Option (List (List Nat))) :
      ReachLC c → send_to_king c b = Except.ok (c1, r) → ReachLC c1
  | doRecv (c c1 : Connections) (bo : Option (List (List Nat))) (r : List Nat) :
      ReachLC c → recv_from_king c bo = Except.ok (c1, r) → ReachLC c1
  | doUninit (c : Connections) : ReachLC c → ReachLC (uninit c)

/-- First init of the C10 counterexample run. -/
def cW10a : Connections :=
  okOr (pubInit pa0 net0 defaultConnections (some ["a", "b"]) 0) defaultConnections

/-- Second init, without an intervening uninit, re-targeting the own id. -/
def cW10b : Connections :=
  okOr (pubInit pa0 net0 cW10a (some ["a", "b"]) 1) defaultConnections

/-- C10 counterexample: a state reachable by public operations (init
twice, without uninit in between) in which the own peer slot holds a
live connection handle — the second init re-points the own id at a slot
that kept its stale stream. -/
theorem own_slot_stream_reachable_some :
    ReachAny cW10b ∧
    (cW10b.peers.get? cW10b.id).map (fun p => p.stream.isSome) = some true :=
  ⟨ReachAny.doInit cW10a cW10b pa0 net0 (some ["a", "b"]) 1
      (ReachAny.doInit defaultConnections cW10a pa0 net0 (some ["a", "b"]) 0
        ReachAny.start (by rfl))
      (by rfl),
    by decide⟩

/-- C10 (amended): along the documented lifecycle — init only on a
registry without live handles — the caller's own peer slot never holds
a connection: `connect_to_all` stores streams only in other parties'
slots, every exchange serves the own index by in-memory copy, and
`uninit` clears every handle. -/
theorem own_slot_stream_none_lifecycle (c : Connections) (h : ReachLC c) :
    ∀ p, c.peers.get? c.id = some p → p.stream = none := by
  induction h with
  | start =>
    intro p hp
    cases hp
  | doInit c c1 pa net file id hr hclean hinit ih =>
    intro p hp
    unfold pubInit at hinit
    cases hi : init_from_path pa c file id with
    | none => rw [hi] at hinit; cases hinit
    | some c2 =>
      rw [hi] at hinit
      dsimp only at hinit
      obtain ⟨-, -, -, lines, parsed, -, hpl, hpeers⟩ :=
        init_from_path_ok pa c file id c2 hi
      obtain ⟨-, -, -, hstr⟩ := parseLines_spec pa lines 0 parsed hpl
      obtain ⟨hid1, -, -, hget⟩ := connect_to_all_ok net c2 c1 hinit
      rw [hid1, hget] at hp
      have hmem : p ∈ c2.peers := List.get?_mem hp
      rw [hpeers] at hmem
      rcases List.mem_append.mp hmem with hm | hm
      · exact hclean p hm
      · exact hstr p hm
  | doBroadcast c c1 b r hr hop ih =>
    intro p hp
    obtain ⟨hid, hget⟩ := broadcast_ok_pres c c1 b r hop
    rw [hid, hget] at hp
    exact ih p hp
  | doSend c c1 b r hr hop ih =>
    intro p hp
    obtain ⟨hid, hget⟩ := send_to_king_ok_pres c c1 b r hop
    rw [hid, hget] at hp
    exact ih p hp
  | doRecv c c1 bo r hr hop ih =>
    intro p hp
    obtain ⟨hid, hget⟩ := recv_from_king_ok_pres c c1 bo r hop
    rw [hid, hget] at hp
    exact ih p hp
  | doUninit c hr ih =>
    intro p hp
    unfold uninit at hp
    dsimp only at hp
    rw [List.get?_map] at hp
    cases hq : c.peers.get? c.id with
    | none => rw [hq] at hp; cases hp
    | some q =>
      rw [hq] at hp
      cases hp
      rfl

/-- Witness for `own_slot_stream_none_lifecycle`: the own slot after a
concrete lifecycle init holds no stream. -/
theorem own_slot_stream_none_witness :
    ((cW10a.peers.get? cW10a.id).getD defaultPeer).stream = none :=
  own_slot_stream_none_lifecycle cW10a
    (ReachLC.doInit defaultConnections cW10a pa0 net0 (some ["a", "b"]) 0
      ReachLC.start (by intro p hp; cases hp) (by rfl))
    ((cW10a.peers.get? cW10a.id).getD defaultPeer) (by rfl)
